import Mathlib

/-!
Shallow embedding of the crimson prototype OSD, checked against its
design specification.  Each section embeds one component of the source:
the segment framing decoder of src/capn_connection.cc, the in-memory
object store of src/store/mem (PageSet.cc, Object.cc, Object.h and the
Iovec of store/Iovec.h), and the offline OsdMap editor.  Machine
integers are modelled as Nat with explicit reduction modulo 2 ^ 32 or
2 ^ 64 at the points where the C++ code performs fixed-width
arithmetic.
-/

namespace Crimson

/-! ## Framing decoder (src/capn_connection.cc)

The decoder reads from a byte stream, modelled as a list of byte
values.  seastar input_stream::read_exactly n yields n bytes, or fewer
exactly when the stream ends early.
-/

/-- Value produced by loading four wire bytes on the little-endian host
and passing them through net::ntoh, i.e. the four bytes interpreted as
a big-endian 32-bit integer (capn_connection.cc applies net::ntoh to
the segment count and to every segment size). -/
def ntoh32 (b0 b1 b2 b3 : Nat) : Nat :=
  ((b0 * 256 + b1) * 256 + b2) * 256 + b3

/-- ProtocolError values thrown by the decoder, one constructor per
phase label appearing in capn_connection.cc: failed to read segment
count, failed to read segment sizes, failed to read segment (with the
expected and received sizes from the message text). -/
inductive ProtoErr : Type
  | shortSegmentCount
  | shortSegmentSizes
  | shortSegment (expected got : Nat)
  deriving DecidableEq, Repr

/-- Embedding of input_stream::read_exactly: the bytes obtained (fewer
than requested only when the stream is exhausted) and the remainder of
the stream. -/
def readExactly (s : List Nat) (n : Nat) : List Nat × List Nat :=
  (s.take n, s.drop n)

/-- Decoding of the sizes buffer: read_segments walks it four bytes at
a time, applying net::ntoh to each 32-bit entry. -/
def sizeEntries : List Nat → List Nat
  | b0 :: b1 :: b2 :: b3 :: rest => ntoh32 b0 b1 b2 b3 :: sizeEntries rest
  | _ => []

/-- Embedding of read_segments and read_segment: for each decoded size
the decoder calls read_exactly with that size as a byte count and
fails with the failed-to-read-segment label when fewer bytes arrive.
There is no check that a declared size is nonzero and no upper sanity
bound. -/
def readSegments : List Nat → List Nat → List (List Nat) →
    Except ProtoErr (List (List Nat))
  | [], _, segments => .ok segments
  | size :: rest, s, segments =>
    let d := (readExactly s size).1
    if d.length < size then .error (.shortSegment size d.length)
    else readSegments rest (readExactly s size).2 (segments ++ [d])

/-- Embedding of read_segment_count: four bytes, short read rejected,
then net::ntoh plus one in uint32 arithmetic. -/
def read_segment_count (s : List Nat) : Except ProtoErr Nat :=
  match (readExactly s 4).1 with
  | [b0, b1, b2, b3] => .ok ((ntoh32 b0 b1 b2 b3 + 1) % 2 ^ 32)
  | _ => .error .shortSegmentCount

/-- Segment count declared by a stream (0 when the stream is too short
for the header; the short case is rejected by read_message anyway). -/
def segmentCount (s : List Nat) : Nat :=
  match (readExactly s 4).1 with
  | [b0, b1, b2, b3] => (ntoh32 b0 b1 b2 b3 + 1) % 2 ^ 32
  | _ => 0

/-- Byte length of the sizes buffer requested by read_message: the
product 4 * count in uint32 arithmetic. -/
def sizeByteCount (s : List Nat) : Nat :=
  4 * segmentCount s % 2 ^ 32

/-- Segment sizes a stream declares, as read_segments decodes them. -/
def declaredSizes (s : List Nat) : List Nat :=
  sizeEntries ((readExactly (readExactly s 4).2 (sizeByteCount s)).1)

/-- Embedding of CapnConnection::read_message: read the segment count,
then 4 * count bytes of sizes (short read rejected with the sizes
label), then each segment in order.  The code consumes no padding
bytes between the header and the segment data, and segment sizes are
used directly as byte counts. -/
def read_message (s : List Nat) : Except ProtoErr (List (List Nat)) :=
  match (readExactly s 4).1 with
  | [b0, b1, b2, b3] =>
    let count := (ntoh32 b0 b1 b2 b3 + 1) % 2 ^ 32
    let s1 := (readExactly s 4).2
    let nbytes := 4 * count % 2 ^ 32
    let sz := (readExactly s1 nbytes).1
    if sz.length < nbytes then .error .shortSegmentSizes
    else readSegments (sizeEntries sz) (readExactly s1 nbytes).2 []
  | _ => .error .shortSegmentCount

lemma readSegments_isOk (sizes : List Nat) (s : List Nat)
    (acc : List (List Nat)) :
    (readSegments sizes s acc).isOk = true ↔ sizes.sum ≤ s.length := by
  induction sizes generalizing s acc with
  | nil => simp [readSegments, Except.isOk, Except.toBool]
  | cons size rest ih =>
    simp only [readSegments, readExactly, List.length_take, List.sum_cons]
    by_cases h : min size s.length < size
    · simp only [if_pos h]
      simp only [Except.isOk, Except.toBool]
      constructor
      · intro hk; cases hk
      · intro hk; omega
    · simp only [if_neg h, ih, List.length_drop]
      omega

lemma readSegments_error (sizes : List Nat) (s : List Nat)
    (acc : List (List Nat)) (e : ProtoErr) :
    readSegments sizes s acc = .error e →
    ∃ expected got, e = .shortSegment expected got ∧ got < expected := by
  induction sizes generalizing s acc with
  | nil => intro hk; cases hk
  | cons size rest ih =>
    simp only [readSegments, readExactly]
    by_cases h : (s.take size).length < size
    · simp only [if_pos h]
      intro hk
      cases hk
      exact ⟨size, (s.take size).length, rfl, h⟩
    · simp only [if_neg h]
      exact ih _ _

/-- C4: the framing decode algorithm.  The claim (and the protocol
comment quoted inside capn_connection.cc itself) describes four-byte
little-endian integers, segment sizes counted in 64-bit words, and
four padding bytes when the segment count N is even.  Evaluating
read_message on the documented encoding of a single one-word segment
(count field 0, size field 1 little-endian, eight data bytes) shows
the code instead decodes the size field through net::ntoh as
16777216 = 2 ^ 24 and treats it as a byte count, failing with the
failed-to-read-segment error instead of returning the segment. -/
theorem c4_framing_decode_bug :
    read_message ([0, 0, 0, 0] ++ [1, 0, 0, 0] ++ List.replicate 8 65)
      = .error (.shortSegment 16777216 8) := by rfl

/-- C5 counterexample: a declared segment size of zero is not rejected.
The stream declares one segment of size zero and read_message returns
an empty segment successfully, while the claim demands a
protocol_error. -/
theorem c5_zero_size_counterexample :
    read_message [0, 0, 0, 0, 0, 0, 0, 0] = .ok [[]] := by rfl

/-- C5 (amended): read_message fails exactly on a short read, and every
failure carries the phase label of the stage that was short (segment
count, segment sizes, or an individual segment with its expected and
received byte counts).  No declared-size validation exists: decoding
succeeds whenever the stream is long enough for the header, the sizes
and the sum of the declared sizes, regardless of zero or enormous
declared sizes. -/
theorem c5_framing_failure_modes (s : List Nat) :
    ((read_message s).isOk = true ↔
      4 ≤ s.length ∧ sizeByteCount s ≤ s.length - 4 ∧
        (declaredSizes s).sum ≤ s.length - 4 - sizeByteCount s)
    ∧ (s.length < 4 → read_message s = .error .shortSegmentCount)
    ∧ (4 ≤ s.length → s.length - 4 < sizeByteCount s →
        read_message s = .error .shortSegmentSizes)
    ∧ (∀ e, read_message s = .error e →
        e = .shortSegmentCount ∨ e = .shortSegmentSizes ∨
          ∃ expected got, e = .shortSegment expected got ∧ got < expected) := by
  rcases s with _ | ⟨b0, _ | ⟨b1, _ | ⟨b2, _ | ⟨b3, rest⟩⟩⟩⟩
  case nil | cons.nil | cons.cons.nil | cons.cons.cons.nil =>
    refine ⟨?_, fun _ => rfl, ?_, ?_⟩
    · simp [read_message, readExactly, Except.isOk, Except.toBool]
    · intro h _
      exfalso
      simp only [List.length_cons, List.length_nil] at h
      omega
    · intro e he
      simp only [read_message, readExactly, List.take] at he
      cases he
      exact Or.inl rfl
  case cons.cons.cons.cons =>
    have hsz : sizeByteCount (b0 :: b1 :: b2 :: b3 :: rest)
        = 4 * ((ntoh32 b0 b1 b2 b3 + 1) % 2 ^ 32) % 2 ^ 32 := rfl
    have hds : declaredSizes (b0 :: b1 :: b2 :: b3 :: rest)
        = sizeEntries (rest.take
            (4 * ((ntoh32 b0 b1 b2 b3 + 1) % 2 ^ 32) % 2 ^ 32)) := rfl
    set nbytes := 4 * ((ntoh32 b0 b1 b2 b3 + 1) % 2 ^ 32) % 2 ^ 32 with hnb
    have hrm : read_message (b0 :: b1 :: b2 :: b3 :: rest)
        = if (rest.take nbytes).length < nbytes
          then .error .shortSegmentSizes
          else readSegments (sizeEntries (rest.take nbytes))
            (rest.drop nbytes) [] := rfl
    refine ⟨?_, ?_, ?_, ?_⟩
    · rw [hrm, hsz, hds]
      by_cases h : (rest.take nbytes).length < nbytes
      · rw [if_pos h]
        simp only [List.length_take] at h
        simp only [Except.isOk, Except.toBool, List.length_cons]
        constructor
        · intro hk; cases hk
        · intro hk; omega
      · rw [if_neg h]
        rw [readSegments_isOk]
        simp only [List.length_take] at h
        simp only [List.length_drop, List.length_cons]
        omega
    · intro h
      exfalso
      simp only [List.length_cons] at h
      omega
    · intro _ h
      rw [hrm, hsz] at *
      simp only [List.length_cons] at h
      rw [if_pos (by simp only [List.length_take]; omega)]
    · intro e he
      rw [hrm] at he
      by_cases h : (rest.take nbytes).length < nbytes
      · rw [if_pos h] at he
        cases he
        exact Or.inr (Or.inl rfl)
      · rw [if_neg h] at he
        exact Or.inr (Or.inr (readSegments_error _ _ _ _ he))

/-- C5 witness: the failure-modes theorem applied to a concrete header
that declares eleven segments and then ends, yielding the sizes-phase
protocol error. -/
theorem c5_framing_failure_modes_witness :
    read_message [0, 0, 0, 10] = .error .shortSegmentSizes :=
  (c5_framing_failure_modes [0, 0, 0, 10]).2.2.1 (by decide) (by decide)

/-! ## Object mutation queue (src/store/mem/Object.cc)

Every write-class operation creates an AsyncMutation token whose
constructor pushes it on the back of the owning objects mutations
list, and destroys the token when its underlying work completes.
Object::commit creates a token, sets its commit flag and returns the
tokens promise.  The promise is set inside
AsyncMutation::~AsyncMutation: with i the list position of the dying
token and j its successor, j gets its promise set when j exists, j is
a commit token and i is at the front of the list; afterwards i is
erased.  We model the queue as a state machine over enqueue and
destroy events.
-/

/-- AsyncMutation token: an identity and the commit flag. -/
structure MutToken where
  id : Nat
  commit : Bool
  deriving DecidableEq, Repr

/-- State of one objects mutation queue: the FIFO list of live tokens
and the ids of barrier tokens whose promise has been set. -/
structure MutQueueState where
  queue : List MutToken
  fulfilled : List Nat
  deriving DecidableEq, Repr

/-- Erasure of the dying token from the tail of the queue (the case
where the token is not at the front, so the promise condition
i == begin is already false). -/
def eraseFirstToken : List MutToken → Nat → List MutToken
  | [], _ => []
  | t :: rest, tid => if t.id = tid then rest else t :: eraseFirstToken rest tid

/-- Embedding of AsyncMutation::~AsyncMutation: i is the position of
the dying token and j = i + 1 its successor; the successors promise is
set exactly when j is not the end of the list, j carries the commit
flag and i is the front of the list; then i is erased. -/
def destroyToken (s : MutQueueState) (tid : Nat) : MutQueueState :=
  match s.queue with
  | [] => s
  | t0 :: rest =>
    if t0.id = tid then
      match rest with
      | nxt :: _ =>
        if nxt.commit then ⟨rest, nxt.id :: s.fulfilled⟩
        else ⟨rest, s.fulfilled⟩
      | [] => ⟨rest, s.fulfilled⟩
    else ⟨t0 :: eraseFirstToken rest tid, s.fulfilled⟩

/-- Events on one objects mutation queue: a write-class operation or a
commit enqueues its token (AsyncMutation constructor), and completion
of the underlying work destroys it. -/
inductive MutEvent
  | enq (t : MutToken)
  | destroy (tid : Nat)
  deriving DecidableEq, Repr

/-- One step of the mutation-queue state machine. -/
def mutStep (s : MutQueueState) : MutEvent → MutQueueState
  | .enq t => ⟨s.queue ++ [t], s.fulfilled⟩
  | .destroy tid => destroyToken s tid

/-- Run of the mutation-queue state machine from an empty queue. -/
def runMut (evs : List MutEvent) : MutQueueState :=
  evs.foldl mutStep ⟨[], []⟩

/-- Token ids in enqueue order of a trace. -/
def enqIds (evs : List MutEvent) : List Nat :=
  evs.filterMap (fun e => match e with | .enq t => some t.id | _ => none)

/-- Invariant of the mutation queue: the live queue is the enqueue
order restricted to live tokens, fulfilled ids were enqueued, and
every token enqueued before a fulfilled barrier has left the queue. -/
def MutInv (past : List MutEvent) (s : MutQueueState) : Prop :=
  (s.queue.map MutToken.id).Sublist (enqIds past)
  ∧ (∀ b ∈ s.fulfilled, b ∈ enqIds past)
  ∧ (∀ b ∈ s.fulfilled, ∀ a, [a, b].Sublist (enqIds past) →
      a ∉ s.queue.map MutToken.id)

lemma enqIds_append (evs evs2 : List MutEvent) :
    enqIds (evs ++ evs2) = enqIds evs ++ enqIds evs2 :=
  List.filterMap_append _ _ _

lemma pair_sublist_antisymm : ∀ {l : List Nat} {a b : Nat}, l.Nodup →
    [a, b].Sublist l → [b, a].Sublist l → a = b := by
  intro l
  induction l with
  | nil => intro a b _ h1 _; cases h1
  | cons x l ih =>
    intro a b hnd h1 h2
    have hx : x ∉ l := (List.nodup_cons.mp hnd).1
    have hnd2 : l.Nodup := (List.nodup_cons.mp hnd).2
    cases h1 with
    | cons _ h1 =>
      cases h2 with
      | cons _ h2 => exact ih hnd2 h1 h2
      | cons₂ _ h2 =>
        exact absurd (h1.subset (by simp)) hx
    | cons₂ _ h1 =>
      cases h2 with
      | cons _ h2 =>
        exact absurd (h2.subset (by simp)) hx
      | cons₂ _ h2 => rfl

lemma pair_sublist_of_cons_mem {t : Nat} {rest L : List Nat}
    (hsub : (t :: rest).Sublist L) {a : Nat} (ha : a ∈ rest) :
    [t, a].Sublist L :=
  List.Sublist.trans (List.Sublist.cons₂ t (List.singleton_sublist.mpr ha)) hsub

lemma pair_sublist_concat {a b x : Nat} {L : List Nat}
    (h : [a, b].Sublist (L ++ [x])) :
    [a, b].Sublist L ∨ (b = x ∧ a ∈ L) := by
  rcases List.sublist_append_iff.mp h with ⟨r1, r2, hr, hr1, hr2⟩
  rcases r1 with _ | ⟨u, _ | ⟨v, r1t⟩⟩
  · simp only [List.nil_append] at hr
    subst hr
    have := hr2.length_le
    simp at this
  · injection hr with h1 h2
    subst h1
    subst h2
    right
    refine ⟨?_, ?_⟩
    · simpa using hr2.subset (by simp)
    · simpa using hr1.subset (by simp)
  · injection hr with h1 h2
    injection h2 with h2 h3
    subst h1
    subst h2
    left
    exact List.Sublist.trans
      (List.Sublist.cons₂ _ (List.Sublist.cons₂ _ (List.nil_sublist _))) hr1

lemma mutInv_enq (past : List MutEvent) (s : MutQueueState) (t : MutToken)
    (hnd : (enqIds (past ++ [MutEvent.enq t])).Nodup)
    (hinv : MutInv past s) :
    MutInv (past ++ [MutEvent.enq t]) (mutStep s (.enq t)) := by
  obtain ⟨hA, hC, hB⟩ := hinv
  have hids : enqIds (past ++ [MutEvent.enq t]) = enqIds past ++ [t.id] := by
    rw [enqIds_append]; rfl
  rw [hids] at hnd
  have hnew : t.id ∉ enqIds past := by
    intro hmem
    exact (List.disjoint_of_nodup_append hnd) hmem (by simp)
  refine ⟨?_, ?_, ?_⟩
  · simp only [mutStep, List.map_append, hids]
    exact hA.append (List.Sublist.refl _)
  · intro b hb
    simp only [mutStep] at hb
    rw [hids]
    exact List.mem_append_left _ (hC b hb)
  · intro b hb a hab
    simp only [mutStep] at hb
    rw [hids] at hab
    simp only [mutStep, List.map_append, List.mem_append, List.map_cons,
      List.map_nil, List.mem_singleton]
    rintro (hin | rfl)
    · rcases pair_sublist_concat hab with h | ⟨rfl, _⟩
      · exact hB b hb a h hin
      · exact hnew (hC _ hb)
    · rcases pair_sublist_concat hab with h | ⟨rfl, haL⟩
      · exact hnew (h.subset (by simp))
      · exact hnew haL

lemma eraseFirstToken_sublist (l : List MutToken) (tid : Nat) :
    (eraseFirstToken l tid).Sublist l := by
  induction l with
  | nil => exact List.Sublist.refl _
  | cons t rest ih =>
    simp only [eraseFirstToken]
    by_cases h : t.id = tid
    · rw [if_pos h]
      exact (List.Sublist.refl rest).cons t
    · rw [if_neg h]
      exact ih.cons₂ t

lemma mutInv_destroy (past : List MutEvent) (s : MutQueueState) (tid : Nat)
    (hnd : (enqIds past).Nodup) (hinv : MutInv past s) :
    MutInv (past ++ [MutEvent.destroy tid]) (mutStep s (.destroy tid)) := by
  obtain ⟨q, f⟩ := s
  obtain ⟨hA, hC, hB⟩ := hinv
  have hids : enqIds (past ++ [MutEvent.destroy tid]) = enqIds past := by
    rw [enqIds_append]; simp [enqIds]
  simp only [MutInv, hids]
  rcases q with _ | ⟨t0, _ | ⟨nxt, qrest⟩⟩
  · exact ⟨hA, hC, hB⟩
  · simp only [mutStep, destroyToken]
    by_cases h0 : t0.id = tid
    · rw [if_pos h0]
      refine ⟨by simp, hC, ?_⟩
      intro b hb a _ hmem
      simp at hmem
    · rw [if_neg h0]
      simp only [eraseFirstToken]
      exact ⟨hA, hC, hB⟩
  · simp only [mutStep, destroyToken]
    by_cases h0 : t0.id = tid
    · rw [if_pos h0]
      have htail : (MutToken.id nxt :: qrest.map MutToken.id).Sublist
          (enqIds past) := by
        refine List.Sublist.trans ?_ hA
        exact (List.Sublist.refl _).cons _
      have holdq : ∀ x : Nat, x ∈ (MutToken.id nxt :: qrest.map MutToken.id) →
          x ∈ (t0 :: nxt :: qrest).map MutToken.id := by
        intro x hx
        simp only [List.map_cons, List.mem_cons] at hx ⊢
        tauto
      by_cases hcm : nxt.commit
      · rw [if_pos hcm]
        refine ⟨htail, ?_, ?_⟩
        · intro b hb
          rcases List.mem_cons.mp hb with rfl | hb
          · exact htail.subset (by simp)
          · exact hC b hb
        · intro b hb a hab
          rcases List.mem_cons.mp hb with rfl | hb
          · intro hmem
            have hne : a ≠ nxt.id := by
              intro heq
              subst heq
              have hdup := List.Nodup.sublist hab hnd
              simp at hdup
            have hmem2 : a = MutToken.id nxt ∨ a ∈ qrest.map MutToken.id := by
              simpa using hmem
            rcases hmem2 with h | h
            · exact hne h
            · have h2 : [MutToken.id nxt, a].Sublist (enqIds past) :=
                pair_sublist_of_cons_mem htail h
              exact hne (pair_sublist_antisymm hnd hab h2)
          · intro hmem
            exact hB b hb a hab (holdq a (by simpa using hmem))
      · rw [if_neg hcm]
        refine ⟨htail, hC, ?_⟩
        intro b hb a hab hmem
        exact hB b hb a hab (holdq a (by simpa using hmem))
    · rw [if_neg h0]
      have hsub : ((t0 :: eraseFirstToken (nxt :: qrest) tid).map
          MutToken.id).Sublist (enqIds past) := by
        refine List.Sublist.trans ?_ hA
        exact ((eraseFirstToken_sublist _ _).map _).cons₂ _
      refine ⟨hsub, hC, ?_⟩
      intro b hb a hab hmem
      refine hB b hb a hab ?_
      refine List.Sublist.subset ?_ hmem
      exact ((eraseFirstToken_sublist _ _).map _).cons₂ _

lemma runMut_inv (evs : List MutEvent) : ∀ (past : List MutEvent)
    (s : MutQueueState), (enqIds (past ++ evs)).Nodup → MutInv past s →
    MutInv (past ++ evs) (evs.foldl mutStep s) := by
  induction evs with
  | nil =>
    intro past s _ hinv
    simpa using hinv
  | cons e evs ih =>
    intro past s hnd hinv
    have h2 : past ++ e :: evs = (past ++ [e]) ++ evs := by simp
    rw [h2] at hnd ⊢
    rw [List.foldl_cons]
    refine ih (past ++ [e]) (mutStep s e) hnd ?_
    have hnd1 : (enqIds (past ++ [e])).Nodup := by
      have := hnd
      rw [enqIds_append] at this
      exact this.of_append_left
    cases e with
    | enq t => exact mutInv_enq past s t hnd1 hinv
    | destroy tid =>
      refine mutInv_destroy past s tid ?_ hinv
      rw [enqIds_append] at hnd1
      exact hnd1.of_append_left

/-- C2 (amended): in every trace of mutation-queue events with
distinct token ids, whenever a barrier tokens promise has been set,
every token enqueued before the barrier has already been destroyed
(it is no longer in the queue).  This is the safety half of the
claim: the commit future resolves only after all prior write-class
mutations completed.  The other half of the claim, that the promise
is set exactly when the barrier reaches the head of the queue, fails:
a commit token enqueued on an empty queue sits at the head and is
never fulfilled, because only the destructor of a predecessor token
sets the promise. -/
theorem c2_commit_barrier (evs : List MutEvent)
    (hnd : (enqIds evs).Nodup) (b : Nat)
    (hb : b ∈ (runMut evs).fulfilled) (a : Nat)
    (hab : [a, b].Sublist (enqIds evs)) :
    a ∉ (runMut evs).queue.map MutToken.id := by
  have h0 : MutInv [] ⟨[], []⟩ := by
    refine ⟨by simp [enqIds], by simp, by simp⟩
  have h1 := runMut_inv evs [] ⟨[], []⟩ (by simpa using hnd) h0
  rw [List.nil_append] at h1
  exact h1.2.2 b hb a hab

/-- C2 witness: one write token then one commit token; destroying the
write token fulfills the barrier, and the write token has left the
queue.  The conclusion is obtained by applying the barrier theorem to
the concrete trace. -/
theorem c2_commit_barrier_witness :
    1 ∉ (runMut [.enq ⟨1, false⟩, .enq ⟨2, true⟩,
      .destroy 1]).queue.map MutToken.id :=
  c2_commit_barrier [.enq ⟨1, false⟩, .enq ⟨2, true⟩, .destroy 1]
    (by decide) 2 (by decide) 1 (by decide)

/-- C2 counterexample: a commit on an empty mutation queue.  The
barrier token is at the head of the queue from the moment it is
enqueued, yet its promise is not set, and even destroying it never
sets it; the claim that the future is fulfilled exactly when the
token reaches the head of the queue is therefore false. -/
theorem c2_empty_queue_commit_counterexample :
    (runMut [.enq ⟨1, true⟩]).queue = [⟨1, true⟩]
    ∧ (runMut [.enq ⟨1, true⟩]).fulfilled = []
    ∧ (runMut [.enq ⟨1, true⟩, .destroy 1]).fulfilled = [] := by decide

/-! ## Attribute store (src/store/mem/Object.cc, Object.h)

Each object carries an array of attr_ns::END = 2 ordered maps
std::map<string, lw_shared_ptr<string>> (namespaces xattr and omap)
and an intrusive list of outstanding AttrCursor handles.  A map is
modelled as an association list sorted by key; a map iterator is
identified by the namespace and key of the node it is pinned to, and
a position inside the map by its index.
-/

/-- Store error codes used by the embedded operations (store errc
values of the source). -/
inductive StoreErr
  | outOfRange
  | invalidArgument
  | noSuchAttributeKey
  | invalidCursor
  deriving DecidableEq, Repr

/-- Result of running a piece of C++ against the store: a value, a
thrown store error, undefined behaviour (an invalid-iterator
dereference actually reached by the code), or a failed GSL contract
assertion (Expects), which fails fast. -/
inductive CppResult (α : Type)
  | ok (a : α)
  | err (e : StoreErr)
  | ub
  | contractViolation
  deriving DecidableEq, Repr

/-- Attribute map of one namespace.  Keys are C++ strings ordered
lexicographically and values are byte blobs; only the ordering and
equality of keys and the identity of values matter to the embedded
operations, so both are represented by codes in Nat. -/
abbrev AttrMap := List (Nat × Nat)

/-- Outstanding AttrCursor handle (Object.h): the namespace and key of
the map node its iterator is pinned to, the valid flag, and whether
it is still linked on the objects attrcursors list. -/
structure AttrCursorH where
  ns : Nat
  key : Nat
  valid : Bool
  linked : Bool
  deriving DecidableEq, Repr

/-- Attribute state of one object: the two namespace maps and the
outstanding cursor handles. -/
structure AttrState where
  xattr : AttrMap
  omap : AttrMap
  attrcursors : List AttrCursorH
  deriving DecidableEq, Repr

/-- Number of attribute namespaces, attr_ns::END in the source. -/
def nsEnd : Nat := 2

/-- The attarray entry for a namespace. -/
def getNs (st : AttrState) (ns : Nat) : AttrMap :=
  if ns = 0 then st.xattr else st.omap

/-- Replacement of the attarray entry for a namespace. -/
def setNs (st : AttrState) (ns : Nat) (m : AttrMap) : AttrState :=
  if ns = 0 then { st with xattr := m } else { st with omap := m }

/-- Index returned by map::lower_bound on the sorted association list:
the first position whose key is not less than attr, or the length of
the list (the end iterator) when every key is smaller. -/
def attrLowerBound : AttrMap → Nat → Nat
  | [], _ => 0
  | (k, _) :: rest, attr =>
    if k < attr then attrLowerBound rest attr + 1 else 0

/-- Embedding of Object::setattr.  After the namespace check the code
computes i = m.lower_bound(attr) and immediately reads i->first with
no check for i == m.end(); when attr is greater than every key
present (in particular on a fresh empty map) this dereferences the
end iterator, which is undefined behaviour, modelled as ub.  When the
key is present the stored value is rebound to the bytes of val (both
branches of the use_count test produce that), otherwise the pair is
inserted in front of position i. -/
def setattr (st : AttrState) (ns : Nat) (attr v : Nat) :
    CppResult AttrState :=
  if nsEnd ≤ ns then .err .invalidArgument
  else
    let m := getNs st ns
    let i := attrLowerBound m attr
    if h : i < m.length then
      if (m.get ⟨i, h⟩).1 = attr then
        .ok (setNs st ns (m.set i (attr, v)))
      else
        .ok (setNs st ns (m.take i ++ [(attr, v)] ++ m.drop i))
    else .ub

/-- Embedding of Object::getattr: namespace check, then m.find. -/
def getattr (st : AttrState) (ns : Nat) (attr : Nat) :
    CppResult Nat :=
  if nsEnd ≤ ns then .err .invalidArgument
  else
    match (getNs st ns).find? (fun p => p.1 = attr) with
    | none => .err .noSuchAttributeKey
    | some p => .ok p.2

/-- Embedding of Object::rmattr: namespace check, m.find with the
missing-key error, then the walk over the attrcursors list that marks
every cursor pinned to the erased node invalid and unlinks it, and
finally the erasure of the map node. -/
def rmattr (st : AttrState) (ns : Nat) (attr : Nat) :
    CppResult AttrState :=
  if nsEnd ≤ ns then .err .invalidArgument
  else if ((getNs st ns).find? (fun p => p.1 = attr)).isNone then
    .err .noSuchAttributeKey
  else
    let cursors := st.attrcursors.map (fun c =>
      if c.linked ∧ c.ns = ns ∧ c.key = attr then
        { c with valid := false, linked := false }
      else c)
    let st2 := setNs st ns ((getNs st ns).eraseP (fun p => p.1 = attr))
    .ok { st2 with attrcursors := cursors }

/-- Embedding of the for_each loop of Object::rmattrs: keys are
removed one by one; a missing key throws after the earlier erasures
have already been applied to the map.  Unlike rmattr, the loop body
touches no cursor: the attrcursors list is never walked. -/
def rmattrsLoop (ns : Nat) : AttrState → List Nat →
    AttrState × Option StoreErr
  | st, [] => (st, none)
  | st, attr :: rest =>
    if ((getNs st ns).find? (fun p => p.1 = attr)).isNone then
      (st, some .noSuchAttributeKey)
    else
      rmattrsLoop ns (setNs st ns ((getNs st ns).eraseP (fun p => p.1 = attr)))
        rest

/-- Embedding of Object::rmattrs: namespace check then the removal
loop; the final state and the error (if any) that the returned future
carries. -/
def rmattrs (st : AttrState) (ns : Nat) (attrs : List Nat) :
    AttrState × Option StoreErr :=
  if nsEnd ≤ ns then (st, some .invalidArgument)
  else rmattrsLoop ns st attrs

/-- Outcome of running a C++ while loop under a fuel bound: the value
it returned, or the marker that the loop had not finished when the
fuel ran out (the source loop would run forever or exhaust memory). -/
inductive LoopOut (α : Type)
  | done (a : α)
  | hang
  deriving DecidableEq, Repr

/-- Embedding of the enumeration loop of Object::enumerate_attr_keys:
while k is not m.end(), if the output already holds to_return items a
cursor at k is returned, otherwise the key at k is appended.  The
body never increments k, exactly as the source is written. -/
def enumKeysLoop (m : AttrMap) (toReturn : Nat) :
    Nat → Nat → List Nat → LoopOut (List Nat × Option Nat)
  | 0, _, _ => .hang
  | fuel + 1, k, out =>
    if h : k < m.length then
      if out.length = toReturn then .done (out, some k)
      else enumKeysLoop m toReturn fuel k (out ++ [(m.get ⟨k, h⟩).1])
    else .done (out, none)

/-- Embedding of Object::enumerate_attr_keys: namespace check, start
position from the cursor (failing with invalid_cursor on an
invalidated handle) or m.begin(), then the loop.  The returned cursor
is reported as the map position it is pinned to (cursor_ref also
links the handle on the attrcursors list, which does not affect the
returned items).  The fuel to_return + 2 covers every iteration the
loop can perform before returning, since each pass that neither
returns nor hangs appends one key. -/
def enumerate_attr_keys (st : AttrState) (ns : Nat)
    (cursor : Option (Bool × Nat)) (toReturn : Nat) :
    CppResult (LoopOut (List Nat × Option Nat)) :=
  if nsEnd ≤ ns then .err .invalidArgument
  else
    match cursor with
    | some (valid, pos) =>
      if valid then .ok (enumKeysLoop (getNs st ns) toReturn (toReturn + 2) pos [])
      else .err .invalidCursor
    | none => .ok (enumKeysLoop (getNs st ns) toReturn (toReturn + 2) 0 [])

/-- C8: attribute set/get idempotence.  The claim includes the case of
a key greater than every key already present; there Object::setattr
computes i = m.lower_bound(attr) = m.end() and dereferences it, which
is undefined behaviour.  The first conjunct is the very first setattr
on a fresh object (empty map); the second inserts behind the largest
existing key; the third shows the insertion path the code does handle
(a key below an existing one), after which getattr returns the stored
value. -/
theorem c8_setattr_end_dereference :
    setattr ⟨[], [], []⟩ 0 7 12 = .ub
    ∧ setattr ⟨[(1, 10)], [], []⟩ 0 2 11 = .ub
    ∧ setattr ⟨[(2, 10)], [], []⟩ 0 1 11
        = .ok ⟨[(1, 11), (2, 10)], [], []⟩
    ∧ getattr ⟨[(1, 11), (2, 10)], [], []⟩ 0 1 = .ok 11 := by
  refine ⟨rfl, by decide, by decide, rfl⟩

/-- C3: cursor invalidation.  rmattr walks the attrcursors list and
invalidates the cursor pinned to the removed key, but rmattrs erases
map entries without touching any cursor: after the batch removal of
the key a cursor points at, the cursor handle still carries
valid = true (and its map iterator now dangles), so a later
enumeration does not fail with invalid_cursor as the claim
requires. -/
theorem c3_rmattrs_skips_cursor_invalidation :
    rmattrs ⟨[(1, 10)], [], [⟨0, 1, true, true⟩]⟩ 0 [1]
      = (⟨[], [], [⟨0, 1, true, true⟩]⟩, none)
    ∧ rmattr ⟨[(1, 10)], [], [⟨0, 1, true, true⟩]⟩ 0 1
      = .ok ⟨[], [], [⟨0, 1, false, false⟩]⟩ := by
  exact ⟨by decide, by decide⟩

/-- C7: attribute enumeration pagination.  The enumeration loop never
increments its iterator: on the two-key map with to_return = 2 and no
cursor it returns the first key twice and a fresh cursor pinned to
that same first position, instead of the two distinct keys in map
order with no cursor. -/
theorem c7_enumerate_never_advances :
    enumerate_attr_keys ⟨[(1, 10), (2, 11)], [], []⟩ 0 none 2
      = .ok (.done ([1, 1], some 0))
    ∧ [1, 1] ≠ [1, 2] := by
  exact ⟨by decide, by decide⟩

/-! ## Iovec and its stripe iterator (store/Iovec.h)

An Iovec is the ordered map from byte offset to owned buffer.  Its
stripe(strides, strideno, stridew) view is supposed to yield the
contiguous sub-spans of the buffers that fall on one stride; its
iterators carry a buffer index vi and a byte position o inside that
buffer.
-/

/-- Buffer of bytes. -/
abbrev Buf := List Nat

/-- Iovec contents: the buffers std::map, sorted by offset. -/
abbrev Iov := List (Nat × Buf)

/-- Parameters of the _stripe view: total strides, the stride to
yield, and the stride width in bytes. -/
structure StripeParams where
  strides : Nat
  strideno : Nat
  stridew : Nat
  deriving DecidableEq, Repr

/-- Position of a stripe iterator: buffer index vi (the buffers map
length meaning end) and byte position o inside the buffer. -/
structure SPos where
  vi : Nat
  o : Nat
  deriving DecidableEq, Repr

/-- stripew(): stride width times number of strides. -/
def stripewOf (p : StripeParams) : Nat := p.stridew * p.strides

/-- stripe_of(adr): which stride an address falls on. -/
def stripe_of (p : StripeParams) (adr : Nat) : Nat :=
  adr % stripewOf p / p.stridew

/-- offset() of a stripe iterator: the position at the end reports the
end offset of the last buffer, an interior position reports the
buffers offset plus o. -/
def iovOffset (iov : Iov) (pos : SPos) : Nat :=
  if pos.vi = iov.length then
    match iov.getLast? with
    | some (f, b) => f + b.length
    | none => 0
  else
    match iov[pos.vi]? with
    | some (f, _) => f + pos.o
    | none => 0

/-- length() of a stripe iterator: zero at the end, otherwise the
span up to the next stride boundary or the end of the buffer. -/
def iovSpanLength (p : StripeParams) (iov : Iov) (pos : SPos) : Nat :=
  if pos.vi = iov.length then 0
  else
    match iov[pos.vi]? with
    | some (_, b) =>
      min (p.stridew - iovOffset iov pos % p.stridew) (b.length - pos.o)
    | none => 0

/-- swnc() of a stripe iterator, exactly as the source writes it: true
at the end; true at a stride boundary belonging to our stride; and
the third test applies stripe_of to the integer value of the boolean
comparison vi->first == strideno (a slip in the source, kept as
written). -/
def swnc (p : StripeParams) (iov : Iov) (pos : SPos) : Bool :=
  if pos.vi = iov.length then true
  else
    match iov[pos.vi]? with
    | none => true
    | some (f, _) =>
      if iovOffset iov pos % stripewOf p = p.strideno * p.stridew then true
      else if pos.o = 0 ∧ stripe_of p (if f = p.strideno then 1 else 0) ≠ 0 then
        true
      else false

/-- Unsigned 64-bit subtraction, wrapping as the C++ operands do. -/
def u64sub (x y : Nat) : Nat :=
  (x % 2 ^ 64 + 2 ^ 64 - y % 2 ^ 64) % 2 ^ 64

/-- Body of the do-while loop of seek(): computes the next stride
offset (with the unsigned arithmetic of the source, including the
wrapping subtraction of vi->first) and advances to the next buffer
when it is past the current buffers size. -/
def seekBody (p : StripeParams) (iov : Iov) (pos : SPos) : SPos :=
  match iov[pos.vi]? with
  | none => pos
  | some (f, b) =>
    let thisStripeBound := (f + pos.o) / stripewOf p
    let nso0 := u64sub (thisStripeBound + p.strideno * p.stridew) f
    let nso :=
      if p.strideno < stripe_of p (f + pos.o) then (nso0 + stripewOf p) % 2 ^ 64
      else nso0
    if b.length ≤ nso then ⟨pos.vi + 1, 0⟩ else pos

/-- seek() of a stripe iterator: run the body, repeat while swnc is
false.  The loop need not terminate, so it runs on fuel; none means
the source would loop forever within that bound. -/
def seekLoop (p : StripeParams) (iov : Iov) : Nat → SPos → Option SPos
  | 0, _ => none
  | fuel + 1, pos =>
    let pos2 := seekBody p iov pos
    if swnc p iov pos2 then some pos2 else seekLoop p iov fuel pos2

/-- end() of the stripe view, exactly as the source writes it: the
iterator at position (s.data.begin(), 0), i.e. buffer index 0 -- not
data.end(). -/
def stripeEnd : SPos := ⟨0, 0⟩

/-- begin() of the stripe view: the end sentinel for an empty map,
otherwise position (begin, 0), moved by seek() when it is not on a
compatible boundary. -/
def stripeBegin (p : StripeParams) (iov : Iov) (fuel : Nat) : Option SPos :=
  if iov.length = 0 then some stripeEnd
  else
    let i : SPos := ⟨0, 0⟩
    if swnc p iov i then some i else seekLoop p iov fuel i

/-- Loop of a range-for over the stripe view: while the position
differs from the end sentinel, yield the dereferenced pair (offset,
contiguous span) and advance with seek. -/
def stripeItemsGo (p : StripeParams) (iov : Iov) :
    Nat → SPos → List (Nat × Buf) → LoopOut (List (Nat × Buf))
  | 0, _, _ => .hang
  | fuel + 1, pos, acc =>
    if pos = stripeEnd then .done acc
    else
      let bytes := ((iov[pos.vi]?.map Prod.snd).getD [])
      let item := (iovOffset iov pos,
        (bytes.drop pos.o).take (iovSpanLength p iov pos))
      match seekLoop p iov fuel pos with
      | none => .hang
      | some pos2 => stripeItemsGo p iov fuel pos2 (acc ++ [item])

/-- Items yielded by iterating stripe(strides, strideno, stridew) of
an Iovec, under a fuel bound. -/
def stripeItems (p : StripeParams) (iov : Iov) (fuel : Nat) :
    LoopOut (List (Nat × Buf)) :=
  match stripeBegin p iov fuel with
  | none => .hang
  | some start => stripeItemsGo p iov fuel start []

/-! ## PageSet (src/store/mem/PageSet.cc)

A PageSetSlice holds the std::map from page index to 64 KiB page of
one core; the PageSet fans write and read out to every slice.  The
canonical PageSet header is not in the repository (the PageSet.h
present is a stale revision with a different page container), so the
small helpers it declares are modelled from the spec.
-/

/-- Size of a page, 64 KiB. -/
def page_size : Nat := 65536

/-- Number of consecutive pages in one stripe. -/
def page_slice_len : Nat := 16

/-- Modelled from the spec: page_index of the missing canonical
PageSet.h; pages are fixed 64 KiB units and the page map is keyed by
page index, so the index of the page holding a byte offset is the
offset divided by the page size. -/
def page_index (off : Nat) : Nat := off / page_size

/-- Modelled from the spec: page_relative of the missing canonical
PageSet.h, the offset of a byte within its page. -/
def page_relative (off : Nat) : Nat := off % page_size

/-- Modelled from the spec: page_aligned of the missing canonical
PageSet.h. -/
def page_aligned (off : Nat) : Bool := off % page_size = 0

/-- Content of one 64 KiB page, byte by byte. -/
def Page : Type := Nat → Nat

/-- A fresh page: 64 KiB of zeros. -/
def zeroPage : Page := fun _ => 0

/-- Page map of one PageSetSlice, sorted by page index.  writable()
obtains a mutable reference by copy-on-write; since sharing never
changes the bytes observed through the map, the model keeps the
content only. -/
abbrev PageMap := List (Nat × Page)

/-- Index returned by the page maps lower_bound: first position whose
page index is not below the key, or the map length (end). -/
def pageLowerBound : PageMap → Nat → Nat
  | [], _ => 0
  | (i, _) :: rest, k => if i < k then pageLowerBound rest k + 1 else 0

/-- Bytes of a page from a page-relative offset. -/
def pageBytes (pg : Page) (o n : Nat) : Buf :=
  (List.range n).map (fun i => pg (o + i))

/-- Overlay of a byte run onto a page at a page-relative offset. -/
def pageWrite (pg : Page) (o : Nat) (data : Buf) : Page :=
  fun i => if o ≤ i ∧ i < o + data.length then data.getD (i - o) 0 else pg i

/-- Insertion into a list at an index. -/
def listInsertAt {α : Type} (l : List α) (i : Nat) (x : α) : List α :=
  l.take i ++ [x] ++ l.drop i

/-- Inner while loop of PageSetSlice::write for one stripe item, with
piter the page-map iterator threaded across the whole call (an index
into the sorted map; the map length denotes the end iterator).  The
loop computes the destination as offset = io.first + (io.second.end()
- biter), i.e. start plus the bytes REMAINING, exactly as the source
does; locates or creates the page (consecutive-page fast path, then
lower_bound, then emplace_hint, whose return value the source
discards, leaving piter on the node it pointed at before the
insertion); obtains the page through piter and copies the span.  The
guard is written with <= so that the recursion is well founded; biter
only ever advances by at most the remaining byte count, so this
agrees with the != comparison of the source. -/
def sliceWriteIo (ioFirst : Nat) (bytes : Buf) (pages : PageMap)
    (piter biter : Nat) : CppResult (PageMap × Nat) :=
  if bytes.length ≤ biter then .ok (pages, piter)
  else
    let offset := ioFirst + (bytes.length - biter)
    let pidx := page_index offset
    let atPage : Bool := piter < pages.length ∧ (pages.getD piter (0, zeroPage)).1 = pidx
    let step :=
      if atPage then (pages, piter)
      else
        let piter1 :=
          if piter < pages.length ∧ (pages.getD piter (0, zeroPage)).1 + 1 = pidx
          then piter + 1
          else pageLowerBound pages pidx
        if piter1 = pages.length ∨ pidx < (pages.getD piter1 (0, zeroPage)).1 then
          (listInsertAt pages piter1 (pidx, zeroPage), piter1 + 1)
        else (pages, piter1)
    let pages2 := step.1
    let piter2 := step.2
    if h2 : piter2 < pages2.length then
      let kv := pages2.get ⟨piter2, h2⟩
      let o := page_relative offset
      let newpg := pageWrite kv.2 o
        ((bytes.drop biter).take (min (bytes.length - biter) (page_size - o)))
      sliceWriteIo ioFirst bytes (pages2.set piter2 (kv.1, newpg)) piter2
        (biter + min (bytes.length - biter) (page_size - page_relative offset))
    else .ub
termination_by bytes.length - biter
decreasing_by
  have hps : 1 ≤ page_size - page_relative (ioFirst + (bytes.length - biter)) := by
    have ho : page_relative (ioFirst + (bytes.length - biter)) < 65536 :=
      Nat.mod_lt _ (by decide)
    simp only [page_size]
    omega
  omega

/-- Fold of the stripe items through the inner write loop, threading
piter (initialized to pages.begin() once per slice write call). -/
def sliceWriteItems : List (Nat × Buf) → PageMap → Nat →
    CppResult (PageMap × Nat)
  | [], pages, piter => .ok (pages, piter)
  | (f, b) :: rest, pages, piter =>
    match sliceWriteIo f b pages piter 0 with
    | .ok (pages2, piter2) => sliceWriteItems rest pages2 piter2
    | .err e => .err e
    | .ub => .ub
    | .contractViolation => .contractViolation

/-- Embedding of PageSetSlice::write: iterate
data->stripe(total_slices, slice, page_size * page_slice_len) and run
the inner loop on each yielded item. -/
def pageSetSliceWrite (total_slices slice : Nat) (pages : PageMap)
    (iov : Iov) (fuel : Nat) : LoopOut (CppResult PageMap) :=
  match stripeItems ⟨total_slices, slice, page_size * page_slice_len⟩ iov
      fuel with
  | .hang => .hang
  | .done items =>
    match sliceWriteItems items pages 0 with
    | .ok (pages2, _) => .done (.ok pages2)
    | .err e => .done (.err e)
    | .ub => .done .ub
    | .contractViolation => .done .contractViolation

/-- Whole pages emitted by the for_each of PageSetSlice::read over map
positions [b, e): the source emplaces each at kv.first, the PAGE
INDEX, as its Iovec offset. -/
def sliceReadFull (pages : PageMap) (b e : Nat) : Iov :=
  ((pages.drop b).take (e - b)).map (fun kv => (kv.1, pageBytes kv.2 0 page_size))

/-- Tail of PageSetSlice::read after the boundary-at-the-start block:
the unaligned_end computation, the begin == end single-page case, the
decrement of end, the for_each over full pages and the final partial
page. -/
def sliceReadRest (pages : PageMap) (b e roff rlen : Nat) : Iov :=
  let ue :=
    if ¬ page_aligned (roff + rlen) ∧ e ≠ pages.length ∧
        page_index (roff + rlen - 1) = (pages.getD e (0, zeroPage)).1
    then page_relative (roff + rlen) else 0
  if ue ≠ 0 then
    if b = e then
      [((pages.getD b (0, zeroPage)).1,
        pageBytes (pages.getD b (0, zeroPage)).2 0 ue)]
    else
      sliceReadFull pages b (e - 1)
        ++ [((pages.getD (e - 1) (0, zeroPage)).1,
          pageBytes (pages.getD (e - 1) (0, zeroPage)).2 0 ue)]
  else sliceReadFull pages b e

/-- Embedding of PageSetSlice::read.  begin is the lower_bound of the
first page index; end is the lower_bound of page_index(offset +
length) - 1, computed in unsigned arithmetic, so when that page index
is zero the subtraction wraps to 2^64 - 1 and the lower_bound is the
map end.  An empty result is returned when begin is the end; a
boundary page at an unaligned start offset is emitted as a partial
span at the byte offset of the range; remaining pages go through
sliceReadRest. -/
def pageSetSliceRead (pages : PageMap) (roff rlen : Nat) : Iov :=
  let b := pageLowerBound pages (page_index roff)
  let e :=
    if page_index (roff + rlen) = 0 then pages.length
    else pageLowerBound pages (page_index (roff + rlen) - 1)
  if b = pages.length then []
  else if ¬ page_aligned roff then
    let o := page_relative roff
    if e = b then
      [(roff, pageBytes (pages.getD b (0, zeroPage)).2 o rlen)]
    else
      let first := (roff, pageBytes (pages.getD b (0, zeroPage)).2 o
        (page_size - o))
      if b + 1 = pages.length then [first]
      else first :: sliceReadRest pages (b + 1) e roff rlen
  else sliceReadRest pages b e roff rlen

/-- Insertion of one buffer into an Iovec as std::map::insert does it:
keep the map sorted by offset and skip the insertion when an entry
with the same offset already exists. -/
def iovInsert : Iov → Nat → Buf → Iov
  | [], k, b => [(k, b)]
  | (k0, b0) :: rest, k, b =>
    if k0 < k then (k0, b0) :: iovInsert rest k b
    else if k0 = k then (k0, b0) :: rest
    else (k, b) :: (k0, b0) :: rest

/-- Embedding of Iovec::merge: insert every entry of the source map
into the destination. -/
def iovMerge (dst src : Iov) : Iov :=
  src.foldl (fun d kb => iovInsert d kb.1 kb.2) dst

/-- Embedding of PageSet::read: map_reduce over the slices starting
from an empty Iovec, merging each slices result. -/
def pageSetRead (parts : List PageMap) (roff rlen : Nat) : Iov :=
  parts.foldl (fun acc pages => iovMerge acc (pageSetSliceRead pages roff rlen)) []

/-- Embedding of PageSet::write: the same Iovec goes to every slice;
slice s of n partitions writes with stripe parameters (n, s,
page_size * page_slice_len). -/
def pageSetWriteGo (total : Nat) (iov : Iov) (fuel : Nat) :
    Nat → List PageMap → LoopOut (CppResult (List PageMap))
  | _, [] => .done (.ok [])
  | s, pages :: rest =>
    match pageSetSliceWrite total s pages iov fuel with
    | .hang => .hang
    | .done (.ok pages2) =>
      match pageSetWriteGo total iov fuel (s + 1) rest with
      | .hang => .hang
      | .done (.ok rest2) => .done (.ok (pages2 :: rest2))
      | .done (.err e) => .done (.err e)
      | .done .ub => .done .ub
      | .done .contractViolation => .done .contractViolation
    | .done (.err e) => .done (.err e)
    | .done .ub => .done .ub
    | .done .contractViolation => .done .contractViolation

/-- PageSet::write across all slices. -/
def pageSetWrite (parts : List PageMap) (iov : Iov) (fuel : Nat) :
    LoopOut (CppResult (List PageMap)) :=
  pageSetWriteGo parts.length iov fuel 0 parts

/-! ## Object data path (src/store/mem/Object.cc, Object.h) -/

/-- Data state of one mem::Object: the logical length data_len, the
per-slice page maps of its PageSet, and the length of its mutation
queue (each write-class operation enqueues one AsyncMutation token;
the queues ordering behaviour is modelled in the mutation-queue
section, so only the count matters here). -/
structure MemObject where
  data_len : Nat
  partitions : List PageMap
  pendingMutations : Nat

/-- Embedding of Object::in_range (Object.h): offset + length compared
against data_len.  The store Range constructor carries
Expects(max u64 - offset >= length), so for any constructed Range the
unsigned sum cannot wrap and plain addition is exact. -/
def in_range (data_len roff rlen : Nat) : Bool :=
  roff + rlen ≤ data_len

/-- Embedding of Object::read: the in_range check failing with
out_of_range, then the merged PageSet read. -/
def objectRead (obj : MemObject) (roff rlen : Nat) : Except StoreErr Iov :=
  if ¬ in_range obj.data_len roff rlen then .error .outOfRange
  else .ok (pageSetRead obj.partitions roff rlen)

/-- Embedding of Object::write: the write length is taken from the
last entry of the Iovec map (the source decrements end() without an
emptiness check, so an empty Iovec dereferences an invalid iterator);
data_len is extended to it, an AsyncMutation token is enqueued, and
the PageSet write runs. -/
def objectWrite (obj : MemObject) (iov : Iov) (fuel : Nat) :
    LoopOut (CppResult MemObject) :=
  match iov.getLast? with
  | none => .done .ub
  | some (f, b) =>
    let writelen := f + b.length
    let dl := if obj.data_len < writelen then writelen else obj.data_len
    match pageSetWrite obj.partitions iov fuel with
    | .hang => .hang
    | .done (.ok parts2) =>
      .done (.ok ⟨dl, parts2, obj.pendingMutations + 1⟩)
    | .done (.err e) => .done (.err e)
    | .done .ub => .done .ub
    | .done .contractViolation => .done .contractViolation

/-- Embedding of the store Range constructor (store/Store.h): offset
and length, with the contract Expects(max u64 - offset >= length);
a violating construction fails the assertion. -/
def mkRange (offset length : Nat) : Option (Nat × Nat) :=
  if length ≤ 2 ^ 64 - 1 - offset then some (offset, length) else none

/-- Embedding of Object::truncate: nothing at all happens when l is
not below data_len; otherwise data_len is set to l, an AsyncMutation
token is enqueued and the PageSet hole_punch is issued on
Range(l, max u64 - 1).  The second component reports the punched
range.  For l at least 2 the Range constructor contract fails
(max u64 - l < max u64 - 1): the earlier revision of truncate passed
length max u64 - l, which always satisfies it. -/
def truncate (obj : MemObject) (l : Nat) :
    CppResult (MemObject × Option (Nat × Nat)) :=
  if obj.data_len > l then
    match mkRange l (2 ^ 64 - 2) with
    | none => .contractViolation
    | some r =>
      .ok (⟨l, obj.partitions, obj.pendingMutations + 1⟩, some r)
  else .ok (obj, none)

/-- C1: write/read round-trip.  With a single slice, a write of four
bytes at offset zero enters PageSetSlice::write, whose loop iterates
the stripe view; the views end() sentinel is the iterator at
data.begin(), so the loop body never runs and no page is created
(data_len is still extended to 4 by Object::write).  The subsequent
read of the same range then returns an empty Iovec -- a hole over the
whole range -- instead of the written bytes. -/
theorem c1_write_read_roundtrip_bug :
    objectWrite ⟨0, [[]], 0⟩ [(0, [65, 66, 67, 68])] 16
      = .done (.ok ⟨4, [[]], 1⟩)
    ∧ objectRead ⟨4, [[]], 1⟩ 0 4 = .ok []
    ∧ ([] : Iov) ≠ [(0, [65, 66, 67, 68])] := by
  exact ⟨rfl, rfl, by decide⟩

/-- C6: the read range check.  Object::read fails with out_of_range
exactly when offset + length exceeds data_len; the hypothesis is the
contract of the store Range constructor, under which the unsigned sum
cannot wrap. -/
theorem c6_read_range_check (obj : MemObject) (roff rlen : Nat)
    (_h : rlen ≤ 2 ^ 64 - 1 - roff) :
    (objectRead obj roff rlen = .error .outOfRange ↔
      obj.data_len < roff + rlen)
    ∧ (obj.data_len < roff + rlen → ∀ v, objectRead obj roff rlen ≠ .ok v) := by
  constructor
  · simp only [objectRead, in_range]
    by_cases hc : roff + rlen ≤ obj.data_len
    · simp only [hc]
      simp
      omega
    · simp only [hc]
      simp
      omega
  · intro hlt v
    simp only [objectRead, in_range]
    have : ¬ (roff + rlen ≤ obj.data_len) := by omega
    simp [this]

set_option maxRecDepth 16384 in
/-- C6 witness: scenario S1.  Writing 1024 bytes at offset zero sets
data_len to 1024 (the page store itself stores nothing, see C1), and
a read at offset 65536 of length 1024 fails with out_of_range by the
range-check theorem applied at those values. -/
theorem c6_read_range_check_witness :
    objectWrite ⟨0, [[]], 0⟩ [(0, List.replicate 1024 65)] 16
      = .done (.ok ⟨1024, [[]], 1⟩)
    ∧ objectRead ⟨1024, [[]], 1⟩ 65536 1024 = .error .outOfRange :=
  ⟨rfl,
    (c6_read_range_check ⟨1024, [[]], 1⟩ 65536 1024 (by norm_num)).1.mpr
      (by norm_num)⟩

/-- C10: truncate.  When l is not below data_len the call returns
immediately and the object is unchanged in every component, with no
mutation token enqueued and no hole punched (first two conjuncts, for
l above and l equal to data_len).  When l is below data_len the code
sets data_len to l and enqueues a token, but the hole punch it issues
constructs Range(l, max u64 - 1), whose constructor contract
Expects(max u64 - l >= max u64 - 1) fails for every l of at least 2
(third conjunct); only l below 2 reaches the punch, with the tail
range starting at l (fourth conjunct). -/
theorem c10_truncate_noop_past_end :
    truncate ⟨8192, [[]], 0⟩ 9000 = .ok (⟨8192, [[]], 0⟩, none)
    ∧ truncate ⟨8192, [[]], 0⟩ 8192 = .ok (⟨8192, [[]], 0⟩, none)
    ∧ truncate ⟨8192, [[]], 0⟩ 4096 = .contractViolation
    ∧ truncate ⟨8192, [[]], 0⟩ 1 = .ok (⟨1, [[]], 1⟩, some (1, 2 ^ 64 - 2)) := by
  refine ⟨rfl, rfl, ?_, ?_⟩
  · simp only [truncate, mkRange]
    norm_num
  · simp only [truncate, mkRange]
    norm_num

/-! ## Offline OsdMap editor (osdmaptool)

The utility decodes the packed OsdMap { epoch, entries } (schema in
osd_map.capnp), edits it, and rewrites the file from offset zero only
on success; every failure returns before the lseek and write, leaving
the file untouched.  Address names are compared only for equality, so
they are represented by codes in Nat.
-/

/-- Address types of the net schema. -/
inductive AddrType
  | rdma
  | ip
  deriving DecidableEq, Repr

/-- Address entry: type and name. -/
structure Address where
  type : AddrType
  name : Nat
  deriving DecidableEq, Repr

/-- One OsdMap entry. -/
structure OsdEntry where
  id : Nat
  addresses : List Address
  deriving DecidableEq, Repr

/-- The OsdMap: epoch (uint32) and entries sorted by id. -/
structure OsdMap where
  epoch : Nat
  entries : List OsdEntry
  deriving DecidableEq, Repr

/-- Failure modes of the editor commands (each prints an error and
returns EXIT_FAILURE before writing the file). -/
inductive CmdError
  | missingAddress
  | existingOsd
  | noSuchOsd
  | existingAddress
  | noSuchAddress
  deriving DecidableEq, Repr

/-- Index of std::lower_bound over the entries with the comparator
osd.getId() < id. -/
def entriesLowerBound : List OsdEntry → Nat → Nat
  | [], _ => 0
  | e :: rest, id => if e.id < id then entriesLowerBound rest id + 1 else 0

/-- copy_addrs: the RDMA addresses then the IP addresses. -/
def copy_addrs (rdma ip : List Nat) : List Address :=
  rdma.map (fun n => ⟨.rdma, n⟩) ++ ip.map (fun n => ⟨.ip, n⟩)

/-- Entries ordered strictly by id. -/
def EntriesSorted (m : OsdMap) : Prop :=
  m.entries.Pairwise (fun a b => a.id < b.id)

/-- Embedding of osdmap_add_osd: an address argument is required; a
present id fails with the existing-osd error before anything is
written; otherwise the new entry is inserted at its lower_bound
position and the epoch incremented in uint32 arithmetic. -/
def osdmap_add_osd (m : OsdMap) (id : Nat) (rdma ip : List Nat) :
    Except CmdError OsdMap :=
  if rdma = [] ∧ ip = [] then .error .missingAddress
  else
    let i := entriesLowerBound m.entries id
    if i < m.entries.length ∧ (m.entries.getD i ⟨0, []⟩).id = id then
      .error .existingOsd
    else
      .ok ⟨(m.epoch + 1) % 2 ^ 32,
        m.entries.take i ++ [⟨id, copy_addrs rdma ip⟩] ++ m.entries.drop i⟩

/-- Embedding of osdmap_remove_osd: a missing id fails with the
no-such-osd error before anything is written; otherwise the entry is
removed and the epoch incremented. -/
def osdmap_remove_osd (m : OsdMap) (id : Nat) : Except CmdError OsdMap :=
  let i := entriesLowerBound m.entries id
  if i = m.entries.length ∨ (m.entries.getD i ⟨0, []⟩).id ≠ id then
    .error .noSuchOsd
  else
    .ok ⟨(m.epoch + 1) % 2 ^ 32, m.entries.eraseIdx i⟩

/-- Embedding of osdmap_add_addrs: requires an address argument and an
existing id; the duplicate check compares candidate names with every
present address name (the source compares getName only, for both
lists); on success the new addresses are appended to the entry and
the epoch incremented. -/
def osdmap_add_addrs (m : OsdMap) (id : Nat) (rdma ip : List Nat) :
    Except CmdError OsdMap :=
  if rdma = [] ∧ ip = [] then .error .missingAddress
  else
    let i := entriesLowerBound m.entries id
    if i = m.entries.length ∨ (m.entries.getD i ⟨0, []⟩).id ≠ id then
      .error .noSuchOsd
    else
      let addrs := (m.entries.getD i ⟨0, []⟩).addresses
      if (rdma ++ ip).any (fun n => addrs.any (fun a => a.name = n)) then
        .error .existingAddress
      else
        .ok ⟨(m.epoch + 1) % 2 ^ 32,
          m.entries.set i ⟨id, addrs ++ copy_addrs rdma ip⟩⟩

/-- Indices of the first address matching each requested name with
the requested type, failing on an absent one. -/
def removeAddrMatches (addrs : List Address) (t : AddrType) :
    List Nat → Except CmdError (List Nat)
  | [] => .ok []
  | n :: rest =>
    match addrs.findIdx? (fun a => decide (a.type = t) && decide (a.name = n)) with
    | none => .error .noSuchAddress
    | some idx =>
      match removeAddrMatches addrs t rest with
      | .ok l => .ok (idx :: l)
      | .error e => .error e

/-- Embedding of osdmap_remove_addrs: requires an address argument and
an existing id; every requested address must be present with its
type, else the command fails before writing; on success the matched
indices are dropped from the entry and the epoch incremented. -/
def osdmap_remove_addrs (m : OsdMap) (id : Nat) (rdma ip : List Nat) :
    Except CmdError OsdMap :=
  if rdma = [] ∧ ip = [] then .error .missingAddress
  else
    let i := entriesLowerBound m.entries id
    if i = m.entries.length ∨ (m.entries.getD i ⟨0, []⟩).id ≠ id then
      .error .noSuchOsd
    else
      let addrs := (m.entries.getD i ⟨0, []⟩).addresses
      match removeAddrMatches addrs .rdma rdma with
      | .error e => .error e
      | .ok m1 =>
        match removeAddrMatches addrs .ip ip with
        | .error e => .error e
        | .ok m2 =>
          let keep := (List.range addrs.length).filter
            (fun j => !((m1 ++ m2).contains j))
          .ok ⟨(m.epoch + 1) % 2 ^ 32,
            m.entries.set i ⟨id, keep.map (fun j => addrs.getD j ⟨.ip, 0⟩)⟩⟩

lemma entriesLowerBound_mem_eq {es : List OsdEntry} {id : Nat}
    (hs : es.Pairwise (fun a b => a.id < b.id))
    {e : OsdEntry} (he : e ∈ es) (hid : e.id = id) :
    entriesLowerBound es id < es.length ∧
      (es.getD (entriesLowerBound es id) ⟨0, []⟩).id = id := by
  induction es with
  | nil => cases he
  | cons x rest ih =>
    have hxall := (List.pairwise_cons.mp hs).1
    have hrest := (List.pairwise_cons.mp hs).2
    simp only [entriesLowerBound]
    by_cases hx : x.id < id
    · rw [if_pos hx]
      have he2 : e ∈ rest := by
        rcases List.mem_cons.mp he with rfl | h2
        · omega
        · exact h2
      have := ih hrest he2
      simp only [List.length_cons, List.getD_cons_succ]
      exact ⟨by omega, this.2⟩
    · rw [if_neg hx]
      have hxe : x.id = id := by
        rcases List.mem_cons.mp he with rfl | h2
        · exact hid
        · have := hxall e h2
          omega
      simp only [List.length_cons, List.getD_cons_zero]
      exact ⟨Nat.succ_pos _, hxe⟩

lemma exists_of_lb_hit {es : List OsdEntry} {id : Nat}
    (h : entriesLowerBound es id < es.length)
    (heq : (es.getD (entriesLowerBound es id) ⟨0, []⟩).id = id) :
    ∃ e ∈ es, e.id = id := by
  refine ⟨es.getD (entriesLowerBound es id) ⟨0, []⟩, ?_, heq⟩
  rw [List.getD_eq_getElem _ _ h]
  exact List.getElem_mem h

lemma mem_insert_at {α : Type} {l : List α} {i : Nat} {x y : α}
    (h : y ∈ l.take i ++ [x] ++ l.drop i) : y = x ∨ y ∈ l := by
  rcases List.mem_append.mp h with h2 | h2
  · rcases List.mem_append.mp h2 with h3 | h3
    · exact Or.inr (List.mem_of_mem_take h3)
    · simp at h3
      exact Or.inl h3
  · exact Or.inr (List.mem_of_mem_drop h2)

lemma insertAt_lb_sorted (id : Nat) (addrs : List Address) :
    ∀ (es : List OsdEntry), es.Pairwise (fun a b => a.id < b.id) →
    ¬ (entriesLowerBound es id < es.length ∧
        (es.getD (entriesLowerBound es id) ⟨0, []⟩).id = id) →
    (es.take (entriesLowerBound es id) ++ [(⟨id, addrs⟩ : OsdEntry)]
      ++ es.drop (entriesLowerBound es id)).Pairwise
        (fun a b => a.id < b.id) := by
  intro es
  induction es with
  | nil =>
    intro _ _
    simp [entriesLowerBound]
  | cons x rest ih =>
    intro hs hc
    have hxall := (List.pairwise_cons.mp hs).1
    have hrest := (List.pairwise_cons.mp hs).2
    simp only [entriesLowerBound] at hc ⊢
    by_cases hx : x.id < id
    · rw [if_pos hx] at hc ⊢
      simp only [List.take_succ_cons, List.drop_succ_cons, List.cons_append]
      have hc2 : ¬ (entriesLowerBound rest id < rest.length ∧
          (rest.getD (entriesLowerBound rest id) ⟨0, []⟩).id = id) := by
        simp only [List.length_cons, List.getD_cons_succ] at hc
        intro h
        exact hc ⟨by omega, h.2⟩
      refine List.pairwise_cons.mpr ⟨?_, ih hrest hc2⟩
      intro y hy
      rcases mem_insert_at hy with rfl | hy2
      · show x.id < id
        exact hx
      · exact hxall y hy2
    · rw [if_neg hx] at hc ⊢
      simp only [List.take_zero, List.drop_zero, List.nil_append,
        List.singleton_append]
      have hxid : id < x.id := by
        simp only [List.length_cons, List.getD_cons_zero] at hc
        have : ¬ x.id = id := fun h => hc ⟨Nat.succ_pos _, h⟩
        omega
      refine List.pairwise_cons.mpr ⟨?_, hs⟩
      intro y hy
      show id < y.id
      rcases List.mem_cons.mp hy with rfl | hy2
      · exact hxid
      · have := hxall y hy2
        omega

lemma set_same_id_sorted :
    ∀ (es : List OsdEntry) (i : Nat) (e2 : OsdEntry),
    es.Pairwise (fun a b => a.id < b.id) →
    (es.getD i ⟨0, []⟩).id = e2.id → i < es.length →
    (es.set i e2).Pairwise (fun a b => a.id < b.id) := by
  intro es
  induction es with
  | nil =>
    intro i e2 _ _ hlen
    simp at hlen
  | cons x rest ih =>
    intro i e2 hs heq hlen
    have hxall := (List.pairwise_cons.mp hs).1
    have hrest := (List.pairwise_cons.mp hs).2
    cases i with
    | zero =>
      simp only [List.getD_cons_zero] at heq
      simp only [List.set_cons_zero]
      refine List.pairwise_cons.mpr ⟨?_, hrest⟩
      intro y hy
      have := hxall y hy
      omega
    | succ j =>
      simp only [List.getD_cons_succ] at heq
      simp only [List.length_cons, Nat.succ_lt_succ_iff] at hlen
      simp only [List.set_cons_succ]
      refine List.pairwise_cons.mpr ⟨?_, ih j e2 hrest heq hlen⟩
      intro y hy
      rcases List.mem_or_eq_of_mem_set hy with hy2 | rfl
      · exact hxall y hy2
      · have hmem : rest.getD j ⟨0, []⟩ ∈ rest := by
          rw [List.getD_eq_getElem _ _ hlen]
          exact List.getElem_mem hlen
        have := hxall _ hmem
        omega

/-- C9: the OsdMap editor.  On a well-formed map (entries strictly
sorted by id, epoch below the uint32 ceiling): add-osd of a present
id never succeeds (the command fails before the file rewrite, so the
file is unmodified); remove-osd of an absent id never succeeds (same
reasoning); and every successful mutating command (add-osd,
remove-osd, add-addrs, remove-addrs) yields a map whose epoch is
exactly one higher and whose entries are still sorted by id. -/
theorem c9_osdmap_editor (m : OsdMap) (hsort : EntriesSorted m)
    (hep : m.epoch + 1 < 2 ^ 32) (id : Nat) (rdma ip : List Nat) :
    ((∃ e ∈ m.entries, e.id = id) →
      ∀ m2, osdmap_add_osd m id rdma ip ≠ .ok m2)
    ∧ ((¬ ∃ e ∈ m.entries, e.id = id) →
      ∀ m2, osdmap_remove_osd m id ≠ .ok m2)
    ∧ (∀ m2, osdmap_add_osd m id rdma ip = .ok m2 →
        m2.epoch = m.epoch + 1 ∧ EntriesSorted m2)
    ∧ (∀ m2, osdmap_remove_osd m id = .ok m2 →
        m2.epoch = m.epoch + 1 ∧ EntriesSorted m2)
    ∧ (∀ m2, osdmap_add_addrs m id rdma ip = .ok m2 →
        m2.epoch = m.epoch + 1 ∧ EntriesSorted m2)
    ∧ (∀ m2, osdmap_remove_addrs m id rdma ip = .ok m2 →
        m2.epoch = m.epoch + 1 ∧ EntriesSorted m2) := by
  have hmod : (m.epoch + 1) % 2 ^ 32 = m.epoch + 1 := Nat.mod_eq_of_lt hep
  have hlb_le : entriesLowerBound m.entries id ≤ m.entries.length := by
    induction m.entries with
    | nil => simp [entriesLowerBound]
    | cons x rest ih2 =>
      simp only [entriesLowerBound, List.length_cons]
      by_cases hx : x.id < id
      · rw [if_pos hx]; omega
      · rw [if_neg hx]; omega
  have hidok : ¬ (entriesLowerBound m.entries id = m.entries.length ∨
      (m.entries.getD (entriesLowerBound m.entries id) ⟨0, []⟩).id ≠ id) →
      (m.entries.getD (entriesLowerBound m.entries id) ⟨0, []⟩).id = id ∧
        entriesLowerBound m.entries id < m.entries.length := by
    intro h
    push_neg at h
    exact ⟨h.2, lt_of_le_of_ne hlb_le h.1⟩
  refine ⟨?_, ?_, ?_, ?_, ?_, ?_⟩
  · rintro ⟨e, he, hid⟩ m2
    have hhit := entriesLowerBound_mem_eq hsort he hid
    simp only [osdmap_add_osd]
    by_cases hempty : rdma = [] ∧ ip = []
    · rw [if_pos hempty]
      intro h; cases h
    · rw [if_neg hempty, if_pos hhit]
      intro h; cases h
  · intro hno m2
    simp only [osdmap_remove_osd]
    have hmiss : entriesLowerBound m.entries id = m.entries.length ∨
        (m.entries.getD (entriesLowerBound m.entries id) ⟨0, []⟩).id ≠ id := by
      by_contra hcon
      rcases hidok hcon with ⟨h2, hlt⟩
      exact hno (exists_of_lb_hit hlt h2)
    rw [if_pos hmiss]
    intro h; cases h
  · intro m2 h
    simp only [osdmap_add_osd] at h
    by_cases hempty : rdma = [] ∧ ip = []
    · rw [if_pos hempty] at h; cases h
    · rw [if_neg hempty] at h
      by_cases hhit : entriesLowerBound m.entries id < m.entries.length ∧
          (m.entries.getD (entriesLowerBound m.entries id) ⟨0, []⟩).id = id
      · rw [if_pos hhit] at h; cases h
      · rw [if_neg hhit] at h
        cases h
        exact ⟨hmod, insertAt_lb_sorted id (copy_addrs rdma ip) m.entries
          hsort hhit⟩
  · intro m2 h
    simp only [osdmap_remove_osd] at h
    by_cases hmiss : entriesLowerBound m.entries id = m.entries.length ∨
        (m.entries.getD (entriesLowerBound m.entries id) ⟨0, []⟩).id ≠ id
    · rw [if_pos hmiss] at h; cases h
    · rw [if_neg hmiss] at h
      cases h
      exact ⟨hmod, List.Pairwise.sublist (List.eraseIdx_sublist _ _) hsort⟩
  · intro m2 h
    simp only [osdmap_add_addrs] at h
    by_cases hempty : rdma = [] ∧ ip = []
    · rw [if_pos hempty] at h; cases h
    · rw [if_neg hempty] at h
      by_cases hmiss : entriesLowerBound m.entries id = m.entries.length ∨
          (m.entries.getD (entriesLowerBound m.entries id) ⟨0, []⟩).id ≠ id
      · rw [if_pos hmiss] at h; cases h
      · rw [if_neg hmiss] at h
        by_cases hdup : ((rdma ++ ip).any fun n =>
            (m.entries.getD (entriesLowerBound m.entries id)
              ⟨0, []⟩).addresses.any fun a => decide (a.name = n)) = true
        · rw [if_pos hdup] at h; cases h
        · rw [if_neg hdup] at h
          cases h
          rcases hidok hmiss with ⟨hid2, hlen2⟩
          exact ⟨hmod, set_same_id_sorted m.entries _ _ hsort hid2 hlen2⟩
  · intro m2 h
    simp only [osdmap_remove_addrs] at h
    by_cases hempty : rdma = [] ∧ ip = []
    · rw [if_pos hempty] at h; cases h
    · rw [if_neg hempty] at h
      by_cases hmiss : entriesLowerBound m.entries id = m.entries.length ∨
          (m.entries.getD (entriesLowerBound m.entries id) ⟨0, []⟩).id ≠ id
      · rw [if_pos hmiss] at h; cases h
      · rw [if_neg hmiss] at h
        rcases hm1 : removeAddrMatches (m.entries.getD (entriesLowerBound
            m.entries id) ⟨0, []⟩).addresses AddrType.rdma rdma with e1 | l1
        · simp only [hm1] at h
          cases h
        · simp only [hm1] at h
          rcases hm2 : removeAddrMatches (m.entries.getD (entriesLowerBound
              m.entries id) ⟨0, []⟩).addresses AddrType.ip ip with e2 | l2
          · simp only [hm2] at h
            cases h
          · simp only [hm2] at h
            cases h
            rcases hidok hmiss with ⟨hid2, hlen2⟩
            exact ⟨hmod, set_same_id_sorted m.entries _ _ hsort hid2 hlen2⟩

/-- C9 witness: scenario S5.  Starting from the map produced by
create then add-osd 5, adding osd 2 succeeds and yields (by the
editor theorem) epoch one higher and sorted entries; concretely the
entries are in order id 2 then id 5 with epoch 2, and a second
add-osd of id 2 on that map can never succeed. -/
theorem c9_osdmap_editor_witness :
    osdmap_add_osd ⟨1, [⟨5, [⟨AddrType.ip, 105⟩]⟩]⟩ 2 [] [102]
      = .ok ⟨2, [⟨2, [⟨AddrType.ip, 102⟩]⟩, ⟨5, [⟨AddrType.ip, 105⟩]⟩]⟩
    ∧ (⟨2, [⟨2, [⟨AddrType.ip, 102⟩]⟩, ⟨5, [⟨AddrType.ip, 105⟩]⟩]⟩ :
        OsdMap).epoch = 1 + 1
    ∧ EntriesSorted ⟨2, [⟨2, [⟨AddrType.ip, 102⟩]⟩, ⟨5, [⟨AddrType.ip, 105⟩]⟩]⟩
    ∧ ∀ m2, osdmap_add_osd
        ⟨2, [⟨2, [⟨AddrType.ip, 102⟩]⟩, ⟨5, [⟨AddrType.ip, 105⟩]⟩]⟩ 2 [] [102]
        ≠ .ok m2 := by
  refine ⟨rfl, ?_, ?_, ?_⟩
  · exact ((c9_osdmap_editor ⟨1, [⟨5, [⟨AddrType.ip, 105⟩]⟩]⟩
      (by simp [EntriesSorted]) (by norm_num) 2 [] [102]).2.2.1
      ⟨2, [⟨2, [⟨AddrType.ip, 102⟩]⟩, ⟨5, [⟨AddrType.ip, 105⟩]⟩]⟩
      rfl).1
  · exact ((c9_osdmap_editor ⟨1, [⟨5, [⟨AddrType.ip, 105⟩]⟩]⟩
      (by simp [EntriesSorted]) (by norm_num) 2 [] [102]).2.2.1
      ⟨2, [⟨2, [⟨AddrType.ip, 102⟩]⟩, ⟨5, [⟨AddrType.ip, 105⟩]⟩]⟩
      rfl).2
  · exact (c9_osdmap_editor
      ⟨2, [⟨2, [⟨AddrType.ip, 102⟩]⟩, ⟨5, [⟨AddrType.ip, 105⟩]⟩]⟩
      (by simp [EntriesSorted, List.pairwise_cons]) (by norm_num) 2 [] [102]).1
      ⟨⟨2, [⟨AddrType.ip, 102⟩]⟩, by simp, rfl⟩

end Crimson

